import Mathlib

/-!
Verification of the process orchestration subsystem of Llama-OS
(`src/backend/src/process.rs`, `src/backend/src/models.rs`), as a shallow
embedding in Lean 4.  Pure helpers are translated directly from the Rust
source; stateful operations are modelled as explicit state passing over the
registry maps, and the concurrent interleaving of launch, output pump and
terminate is modelled by a small-step transition relation whose atomic steps
are the lock-protected blocks of the source.
-/

set_option maxRecDepth 8192

namespace LlamaOS

/-- Status enum from `models.rs` lines 79-85 (`ProcessStatus`). -/
inductive ProcessStatus where
  | Starting
  | Running
  | Stopped
  | Failed
deriving DecidableEq, Repr

/-- Process record from `models.rs` lines 65-77 (`ProcessInfo`).
`created_at` is an abstract timestamp. -/
structure ProcessInfo where
  id : String
  model_path : String
  model_name : String
  host : String
  port : Nat
  command : List String
  status : ProcessStatus
  output : List String
  created_at : Nat
  last_sent_line : Option Nat
deriving DecidableEq, Repr

/-- Poll result from `models.rs` lines 97-102 (`ProcessOutput`). -/
structure ProcessOutput where
  output : List String
  is_running : Bool
  return_code : Option Int
deriving DecidableEq, Repr

/-- Configuration fields from `models.rs` lines 5-14 (`GlobalConfig`). -/
structure GlobalConfig where
  models_directory : String
  executable_folder : String
  active_executable_folder : Option String
  active_executable_version : Option String
  theme_color : String
deriving DecidableEq, Repr

/-! ### Port override parsing (`parse_port_from_args`, process.rs 490-517) -/

/-- First character index at which `needle` occurs in the haystack,
mirroring Rust `str::find` with a substring pattern. -/
def findSubFrom (needle : List Char) : List Char → Nat → Option Nat
  | [], i => if needle.isEmpty then some i else none
  | c :: rest, i =>
    if needle.isPrefixOf (c :: rest) then some i
    else findSubFrom needle rest (i + 1)

/-- First index of character `target`, mirroring Rust `str::find` with a
character pattern. -/
def findCharIdx (target : Char) : List Char → Option Nat
  | [] => none
  | c :: rest => if c = target then some 0 else (findCharIdx target rest).map (· + 1)

/-- Decimal value of a digit list. -/
def digitsVal (digits : List Char) : Nat :=
  digits.foldl (fun acc c => acc * 10 + (c.toNat - 48)) 0

/-- Parsing of a (sign-stripped) digit list: nonempty, all ASCII digits,
value at most 65535. -/
def parseU16Digits (digits : List Char) : Option Nat :=
  if digits = [] then none
  else if digits.all Char.isDigit then
    if digitsVal digits ≤ 65535 then some (digitsVal digits) else none
  else none

/-- Rust `str::parse::<u16>`: an optional leading plus sign, then one or
more ASCII digits, whose value is at most 65535. -/
def parseU16 (s : List Char) : Option Nat :=
  parseU16Digits
    (match s with
     | c :: rest => if c = '+' then rest else c :: rest
     | [] => [])

/-- The characters of the pattern `--port`. -/
def portNeedle : List Char := ['-', '-', 'p', 'o', 'r', 't']

/-- The slice of `custom_args` that `parse_port_from_args` treats as the
port value, given the position of the first `--port` occurrence: after an
equals sign the text up to the next space, otherwise the text after leading
whitespace up to the next space (process.rs 492-510). -/
def portValueText (cs : List Char) (port_pos : Nat) : List Char :=
  let after_port := cs.drop (port_pos + 6)
  match after_port with
  | c :: after_equals =>
    if c = '=' then
      match findCharIdx ' ' after_equals with
      | some space_pos => after_equals.take space_pos
      | none => after_equals
    else
      let trimmed := after_port.dropWhile Char.isWhitespace
      match findCharIdx ' ' trimmed with
      | some space_pos => trimmed.take space_pos
      | none => trimmed
  | [] => []

/-- Transcription of `parse_port_from_args` (process.rs 490-517). -/
def parse_port_from_args (custom_args : String) (default_port : Nat) : Nat :=
  match findSubFrom portNeedle custom_args.data 0 with
  | none => default_port
  | some port_pos =>
    match parseU16 (portValueText custom_args.data port_pos) with
    | some port => port
    | none => default_port

/-- The port override carried by `custom_args`: the value extracted after
the first `--port` occurrence, when it parses as an unsigned 16-bit
integer. -/
def portOverride (custom_args : String) : Option Nat :=
  match findSubFrom portNeedle custom_args.data 0 with
  | none => none
  | some port_pos => parseU16 (portValueText custom_args.data port_pos)

/-! ### Custom argument tokenizer (`parse_custom_args`, process.rs 543-574) -/

/-- The double-quote character. -/
def dquote : Char := Char.ofNat 34

/-- The single-quote character. -/
def squote : Char := Char.ofNat 39

/-- Transcription of the loop of `parse_custom_args` (process.rs 549-572):
a quote character toggles quoting and is dropped, a space outside quotes
flushes the current token when nonempty, every other character (including a
space inside quotes) is appended to the current token; at the end a
nonempty current token is still emitted. -/
def parseArgsGo : List Char → Bool → List Char → List (List Char)
  | [], _, current_arg =>
    if current_arg = [] then [] else [current_arg]
  | c :: rest, in_quotes, current_arg =>
    if c = dquote ∨ c = squote then parseArgsGo rest (!in_quotes) current_arg
    else if c = ' ' ∧ in_quotes = false then
      if current_arg = [] then parseArgsGo rest in_quotes []
      else current_arg :: parseArgsGo rest in_quotes []
    else parseArgsGo rest in_quotes (current_arg ++ [c])

/-- Transcription of `parse_custom_args` (process.rs 543-574). -/
def parse_custom_args (custom_args : String) : List String :=
  (parseArgsGo custom_args.data false []).map (fun cs => String.mk cs)

/-- Modelled from the spec: splitting a character list into
space-separated tokens with empty tokens dropped, the claimed behaviour of
the tokenizer outside of quotes. -/
def spaceTokensGo : List Char → List Char → List (List Char)
  | [], cur => if cur = [] then [] else [cur]
  | c :: rest, cur =>
    if c = ' ' then
      if cur = [] then spaceTokensGo rest [] else cur :: spaceTokensGo rest []
    else spaceTokensGo rest (cur ++ [c])

/-- Space-separated tokens of a character list. -/
def spaceTokens (cs : List Char) : List (List Char) := spaceTokensGo cs []

/-! ### Port allocation (`find_available_port`, process.rs 519-541).
The bind probe `is_port_available` is abstracted as an oracle
`avail : Nat → Bool`. -/

/-- One iteration of the `find_available_port` loop: if the current port is
available return it, otherwise increment the `u16` port and give up with
the original start port once the wrapped difference to the start exceeds
10.  Both `port += 1` and `port - start_port` are `u16` operations, so
they are taken modulo 65536 (the release-build wrapping semantics; a
debug build would instead panic on the overflow).  The fuel argument is
11, enough for the 11 ports the loop can ever probe before the guard
fires. -/
def findPortAux (avail : Nat → Bool) (start : Nat) : Nat → Nat → Nat
  | _, 0 => start
  | port, fuel + 1 =>
    if avail port then port
    else if ((port + 1) % 65536 + 65536 - start) % 65536 > 10 then start
    else findPortAux avail start ((port + 1) % 65536) fuel

/-- Transcription of `find_available_port` (process.rs 530-541). -/
def find_available_port (avail : Nat → Bool) (start_port : Nat) : Nat :=
  findPortAux avail start_port start_port 11

/-! ### Output log retention (`add_output_line`, process.rs 417-426) -/

/-- Transcription of the log append in `add_output_line` (process.rs
420-424): push the line, then drain the front down to the last 1000
lines. -/
def add_output_line (output : List String) (line : String) : List String :=
  let out := output ++ [line]
  if out.length > 1000 then out.drop (out.length - 1000) else out

/-- The synthetic log line the output pump appends after process exit
(process.rs 404). -/
def exitLine (code : Int) : String := "Process exited with code: " ++ toString code

/-- The exit-path record update of the output pump (process.rs 402-406):
set status `Stopped` and push the synthetic exit line.  The push does not
go through `add_output_line`, so it is not trimmed. -/
def pumpExitRecUpdate (p : ProcessInfo) (code : Int) : ProcessInfo :=
  { p with status := ProcessStatus.Stopped, output := p.output ++ [exitLine code] }

/-! ### Registry maps.  `running_processes` (metadata) and
`child_processes` (handles) are modelled as functions from process
identifiers; a handle map entry is `true` when the id holds a live
`ProcessHandle`. -/

/-- Point update of a metadata map. -/
def mapSet (m : String → Option ProcessInfo) (id : String) (v : Option ProcessInfo) :
    String → Option ProcessInfo :=
  fun x => if x = id then v else m x

/-- Point update of a handle map. -/
def boolSet (m : String → Bool) (id : String) (v : Bool) : String → Bool :=
  fun x => if x = id then v else m x

/-- Point update of a `Nat`-valued map. -/
def natSet (m : String → Nat) (id : String) (v : Nat) : String → Nat :=
  fun x => if x = id then v else m x

/-- The `if let Some(p) = map.get_mut(id)` update pattern used throughout
`process.rs`: apply `f` to the record when present, do nothing when
absent. -/
def updRecord (m : String → Option ProcessInfo) (id : String) (f : ProcessInfo → ProcessInfo) :
    String → Option ProcessInfo :=
  match m id with
  | some p => mapSet m id (some (f p))
  | none => m

/-! ### Output polling (`get_process_logs`, process.rs 460-488) -/

/-- Whether the poll result reports the process as running
(process.rs 482): exactly the `Running` and `Starting` statuses. -/
def isRunningStatus : ProcessStatus → Bool
  | ProcessStatus.Running => true
  | ProcessStatus.Starting => true
  | _ => false

/-- Transcription of `get_process_logs` (process.rs 460-488): look the
record up; return the log suffix past the cursor and advance the cursor to
the current length when the cursor is behind, otherwise return no lines
and leave the record untouched; report `is_running` from the status and
always `return_code = none`; an unknown id is an error.  Returns the
updated metadata map together with the result. -/
def get_process_logs (procs : String → Option ProcessInfo) (process_id : String) :
    (String → Option ProcessInfo) × Except String ProcessOutput :=
  match procs process_id with
  | some p =>
    let total_lines := p.output.length
    let last_sent := p.last_sent_line.getD 0
    if last_sent < total_lines then
      let new_output := p.output.drop last_sent
      (mapSet procs process_id (some { p with last_sent_line := some total_lines }),
       Except.ok ⟨new_output, isRunningStatus p.status, none⟩)
    else
      (procs, Except.ok ⟨[], isRunningStatus p.status, none⟩)
  | none => (procs, Except.error "Process not found")

/-! ### Termination (`terminate_process`, process.rs 428-458) -/

/-- Registry state seen by `terminate_process`: the metadata map and the
handle map. -/
structure RegState where
  running_processes : String → Option ProcessInfo
  child_processes : String → Bool

/-- Transcription of `terminate_process` (process.rs 428-458).  `killOk`
abstracts the outcome of the OS `kill` call; `lg` is the message log.  The
handle is removed first (a kill is attempted and its failure only logged),
then the record status is set to `Stopped` and the record removed; the
function returns `true` (`Ok(())`) unconditionally. -/
def terminate_process (st : RegState) (process_id : String) (killOk : Bool)
    (lg : List String) : RegState × List String × Bool :=
  let hadHandle := st.child_processes process_id
  let child2 := boolSet st.child_processes process_id false
  let lg2 :=
    if hadHandle then
      lg ++ [if killOk then "Successfully killed process: " ++ process_id
             else "Failed to kill process " ++ process_id]
    else lg
  let running1 := updRecord st.running_processes process_id
    (fun p => { p with status := ProcessStatus.Stopped })
  let running2 := mapSet running1 process_id none
  (⟨running2, child2⟩, lg2, true)

/-! ### Executable resolution
(`resolve_llama_server_path_with_fallback`, process.rs 12-85).
Paths are component lists; the filesystem is abstracted as an existence
oracle plus the directory listing of `executable_folder/versions`. -/

/-- A directory entry of `executable_folder/versions` as the fallback scan
sees it: its name, whether it is a directory, and its creation time when
readable. -/
structure FsEntry where
  name : String
  isDir : Bool
  created : Option Nat
deriving DecidableEq, Repr

/-- Abstract filesystem: path existence, whether the `versions` directory
exists, and its entries. -/
structure FsModel where
  pathExists : List String → Bool
  versionsDirExists : Bool
  entries : List FsEntry

/-- The preferred executable path (process.rs 21-30): the active version
name takes precedence, then the active folder, then the executable
folder itself. -/
def preferredPath (cfg : GlobalConfig) (exe : String) : List String :=
  match cfg.active_executable_version with
  | some version_name => [cfg.executable_folder, "versions", version_name, exe]
  | none =>
    match cfg.active_executable_folder with
    | some active_path => [active_path, exe]
    | none => [cfg.executable_folder, exe]

/-- The fallback candidates (process.rs 37-55): subdirectories of
`executable_folder/versions` that contain the executable, as
(name, creation time) pairs.  The source keeps the full directory path;
since all candidates share the parent `executable_folder/versions`, the
reverse-path tie-break below reduces to a reverse-name tie-break. -/
def candidateList (fs : FsModel) (cfg : GlobalConfig) (exe : String) :
    List (String × Option Nat) :=
  if fs.versionsDirExists then
    (fs.entries.filter (fun e => e.isDir &&
        fs.pathExists [cfg.executable_folder, "versions", e.name, exe])).map
      (fun e => (e.name, e.created))
  else []

/-- The candidate comparator (process.rs 58-63): creation time descending;
an entry with a time before an entry without; two entries without a time by
reverse name order. -/
def candCmp (a b : String × Option Nat) : Ordering :=
  match a.2, b.2 with
  | some ta, some tb => compare tb ta
  | some _, none => Ordering.lt
  | none, some _ => Ordering.gt
  | none, none => compare b.1 a.1

/-- The weak order induced by `candCmp`, used to run the (stable) sort. -/
def candLE (a b : String × Option Nat) : Bool := !(candCmp a b == Ordering.gt)

/-- The ranked candidates: the source's stable `sort_by` with `candCmp`,
modelled by a stable merge sort. -/
def rankedCandidates (fs : FsModel) (cfg : GlobalConfig) (exe : String) :
    List (String × Option Nat) :=
  (candidateList fs cfg exe).mergeSort candLE

/-- Rendering of a component path as the string stored in the
configuration. -/
def pathToString (p : List String) : String := String.intercalate "/" p

/-- Transcription of `resolve_llama_server_path_with_fallback`
(process.rs 12-85): return the preferred path when it exists; otherwise
adopt the best-ranked fallback candidate as the new active version and
return its executable path; with no candidate return the preferred path
unchanged.  Returns the path together with the possibly updated
configuration. -/
def resolve_llama_server_path_with_fallback (fs : FsModel) (cfg : GlobalConfig)
    (exe : String) : List String × GlobalConfig :=
  let preferred := preferredPath cfg exe
  if fs.pathExists preferred then (preferred, cfg)
  else
    match rankedCandidates fs cfg exe with
    | [] => (preferred, cfg)
    | chosen :: _ =>
      ([cfg.executable_folder, "versions", chosen.1, exe],
       { cfg with
         active_executable_folder :=
           some (pathToString [cfg.executable_folder, "versions", chosen.1]),
         active_executable_version := some chosen.1 })

/-! ### Concurrent transition system.
One atomic step per lock-protected block of `process.rs`.  A per-id phase
counter encodes the program order of the launch steps (process.rs 205-216)
and of the output pump (process.rs 334-415); terminate steps are enabled
once launch has completed, since a caller only learns the freshly generated
UUID from the returned `LaunchResult`.  `termReady` records that some
terminate call has already removed the handle (its first lock block), which
enables the metadata-removal block of that call. -/

/-- Global state: the two registry maps plus the per-id control state. -/
structure SysState where
  running_processes : String → Option ProcessInfo
  child_processes : String → Bool
  phase : String → Nat
  termReady : String → Bool

/-- The initial state: empty maps, nothing launched. -/
def sysInit : SysState :=
  ⟨fun _ => none, fun _ => false, fun _ => 0, fun _ => false⟩

/-- Launch, first lock block (process.rs 206-209): insert the metadata
record. -/
def launchMetaState (σ : SysState) (id : String) (info : ProcessInfo) : SysState :=
  ⟨mapSet σ.running_processes id (some info), σ.child_processes,
   natSet σ.phase id 1, σ.termReady⟩

/-- Launch, second lock block (process.rs 213-216): insert the handle. -/
def launchHandleState (σ : SysState) (id : String) : SysState :=
  ⟨σ.running_processes, boolSet σ.child_processes id true,
   natSet σ.phase id 2, σ.termReady⟩

/-- Output pump entry (process.rs 348-353): set status `Running` when the
record is still present. -/
def pumpStartState (σ : SysState) (id : String) : SysState :=
  ⟨updRecord σ.running_processes id (fun p => { p with status := ProcessStatus.Running }),
   σ.child_processes, natSet σ.phase id 3, σ.termReady⟩

/-- One pump output line (process.rs 357-374 via `add_output_line`). -/
def pumpLineState (σ : SysState) (id : String) (line : String) : SysState :=
  ⟨updRecord σ.running_processes id
     (fun p => { p with output := add_output_line p.output line }),
   σ.child_processes, σ.phase, σ.termReady⟩

/-- Pump exit block (process.rs 400-407): set status `Stopped` and push
the synthetic exit line, untrimmed. -/
def pumpExitState (σ : SysState) (id : String) (code : Int) : SysState :=
  ⟨updRecord σ.running_processes id (fun p => pumpExitRecUpdate p code),
   σ.child_processes, natSet σ.phase id 4, σ.termReady⟩

/-- Pump cleanup block (process.rs 410-414): remove only the handle. -/
def pumpRemoveState (σ : SysState) (id : String) : SysState :=
  ⟨σ.running_processes, boolSet σ.child_processes id false,
   natSet σ.phase id 5, σ.termReady⟩

/-- Terminate, first lock block (process.rs 435-446): remove the handle
(kill outcome is only logged). -/
def termHandleState (σ : SysState) (id : String) : SysState :=
  ⟨σ.running_processes, boolSet σ.child_processes id false,
   σ.phase, boolSet σ.termReady id true⟩

/-- Terminate, second lock block (process.rs 449-455): set status
`Stopped`, then remove the metadata record; the net effect on the map is
the removal. -/
def termMetaState (σ : SysState) (id : String) : SysState :=
  ⟨mapSet σ.running_processes id none, σ.child_processes, σ.phase, σ.termReady⟩

/-- A `get_process_logs` call (process.rs 464-488): only the cursor of the
record can change. -/
def getLogsState (σ : SysState) (id : String) : SysState :=
  ⟨(get_process_logs σ.running_processes id).1, σ.child_processes, σ.phase, σ.termReady⟩

/-- Atomic steps of the orchestration subsystem, one per lock-protected
block, with the program-order preconditions described above. -/
inductive Step : SysState → SysState → Prop where
  | launchMeta (σ : SysState) (id : String) (info : ProcessInfo)
      (hphase : σ.phase id = 0)
      (hstatus : info.status = ProcessStatus.Starting)
      (houtput : info.output = [])
      (hcursor : info.last_sent_line = some 0) :
      Step σ (launchMetaState σ id info)
  | launchHandle (σ : SysState) (id : String) (hphase : σ.phase id = 1) :
      Step σ (launchHandleState σ id)
  | pumpStart (σ : SysState) (id : String) (hphase : σ.phase id = 2) :
      Step σ (pumpStartState σ id)
  | pumpLine (σ : SysState) (id : String) (line : String) (hphase : σ.phase id = 3) :
      Step σ (pumpLineState σ id line)
  | pumpExit (σ : SysState) (id : String) (code : Int) (hphase : σ.phase id = 3) :
      Step σ (pumpExitState σ id code)
  | pumpRemove (σ : SysState) (id : String) (hphase : σ.phase id = 4) :
      Step σ (pumpRemoveState σ id)
  | termHandle (σ : SysState) (id : String) (hphase : 2 ≤ σ.phase id) :
      Step σ (termHandleState σ id)
  | termMeta (σ : SysState) (id : String) (hready : σ.termReady id = true) :
      Step σ (termMetaState σ id)
  | getLogs (σ : SysState) (id : String) :
      Step σ (getLogsState σ id)

/-- States reachable from the empty initial state by any interleaving. -/
inductive Reach : SysState → Prop where
  | init : Reach sysInit
  | step {σ σ' : SysState} : Reach σ → Step σ σ' → Reach σ'

/-- Numeric rank of a status along the lifecycle
`Starting -> Running -> Stopped`. -/
def statusRank : ProcessStatus → Nat
  | ProcessStatus.Starting => 0
  | ProcessStatus.Running => 1
  | ProcessStatus.Stopped => 2
  | ProcessStatus.Failed => 3

/-- The inductive invariant of the transition system: handle-map keys are
metadata-map keys; the per-id phase bounds the control state; and the
status of a present record is determined by the phase. -/
def Inv (σ : SysState) : Prop :=
  (∀ id, σ.child_processes id = true → σ.running_processes id ≠ none) ∧
  (∀ id, σ.phase id ≤ 1 → σ.child_processes id = false) ∧
  (∀ id, σ.phase id = 1 → σ.running_processes id ≠ none) ∧
  (∀ id, σ.termReady id = true → 2 ≤ σ.phase id ∧ σ.child_processes id = false) ∧
  (∀ id, σ.phase id = 0 → σ.running_processes id = none) ∧
  (∀ id p, σ.phase id ≤ 2 → σ.running_processes id = some p →
    p.status = ProcessStatus.Starting) ∧
  (∀ id p, σ.phase id = 3 → σ.running_processes id = some p →
    p.status = ProcessStatus.Running) ∧
  (∀ id p, 4 ≤ σ.phase id → σ.running_processes id = some p →
    p.status = ProcessStatus.Stopped)

/-! ### A concrete execution reaching an oversized log (for the retention
bound).  One process is launched, the pump emits 1000 lines, then the
process exits and the pump pushes the untrimmed synthetic exit line. -/

/-- A concrete freshly launched record, used in concrete executions. -/
def sampleRec : ProcessInfo :=
  ⟨"a", "/models/a.gguf", "a", "127.0.0.1", 8080, ["llama-server"],
   ProcessStatus.Starting, [], 0, some 0⟩

/-- The concrete state after launch and pump start. -/
def c2Base : SysState :=
  pumpStartState (launchHandleState (launchMetaState sysInit "a" sampleRec) "a") "a"

/-- The concrete state after `n` pump output lines. -/
def c2Lines : Nat → SysState
  | 0 => c2Base
  | n + 1 => pumpLineState (c2Lines n) "a" "x"

/-- The concrete state after 1000 pump lines and the pump exit block. -/
def c2State : SysState := pumpExitState (c2Lines 1000) "a" 0

/-! ### Concrete inputs used to instantiate the theorems below -/

/-- A concrete running record with one delivered log line. -/
def wRec : ProcessInfo :=
  ⟨"a", "/models/a.gguf", "a", "127.0.0.1", 8080, ["llama-server"],
   ProcessStatus.Running, ["l1"], 0, some 1⟩

/-- A concrete one-entry metadata map. -/
def wMap : String → Option ProcessInfo :=
  fun x => if x = "a" then some wRec else none

/-- A concrete record whose log is full (1000 lines) and fully
delivered. -/
def c3Rec : ProcessInfo :=
  ⟨"p", "/models/p.gguf", "p", "127.0.0.1", 8080, ["llama-server"],
   ProcessStatus.Running, List.replicate 1000 "x", 0, some 1000⟩

/-- The metadata map holding only `c3Rec`. -/
def c3Map : String → Option ProcessInfo :=
  fun x => if x = "p" then some c3Rec else none

/-- `c3Map` after the pump appends one more line through
`add_output_line` (which trims the log back down to 1000 lines). -/
def c3Map2 : String → Option ProcessInfo :=
  updRecord c3Map "p" (fun p => { p with output := add_output_line p.output "new" })

/-- A concrete configuration whose active version `v1` is missing from
disk. -/
def w1cfg : GlobalConfig :=
  ⟨"/models", "/opt", none, some "v1", "dark-gray"⟩

/-- A concrete filesystem where only the fallback version `v2` holds the
executable `srv`. -/
def w1fs : FsModel :=
  ⟨fun p => decide (p = ["/opt", "versions", "v2", "srv"]), true,
   [⟨"v2", true, some 5⟩]⟩

/-! ## Theorems -/

/-- A successfully parsed digit list has value at most 65535. -/
theorem parseU16Digits_le {ds : List Char} {v : Nat} (h : parseU16Digits ds = some v) :
    v ≤ 65535 := by
  unfold parseU16Digits at h
  split at h
  · exact absurd h (by simp)
  · split at h
    · split at h
      · injection h with h
        omega
      · exact absurd h (by simp)
    · exact absurd h (by simp)

/-- A successfully parsed port value is at most 65535. -/
theorem parseU16_le {s : List Char} {v : Nat} (h : parseU16 s = some v) : v ≤ 65535 :=
  parseU16Digits_le h

/-- C4: the effective requested port is derived by scanning `custom_args`
for the first `--port` occurrence, in `--port=VALUE` or `--port VALUE`
form; when the extracted value parses as an unsigned 16-bit integer it
overrides the configured default port, and in every other case (no
`--port`, or an unparseable value) the default is used.  In particular
`--port 9001` with default 8080 yields 9001. -/
theorem c4_port_override_parsing :
    (parse_port_from_args "--port 9001" 8080 = 9001) ∧
    (parse_port_from_args "--port=9001" 8080 = 9001) ∧
    (∀ s d, parse_port_from_args s d = (portOverride s).getD d) ∧
    (∀ s v, portOverride s = some v → v ≤ 65535) ∧
    (∀ s d, findSubFrom portNeedle s.data 0 = none → parse_port_from_args s d = d) := by
  refine ⟨by decide, by decide, ?_, ?_, ?_⟩
  · intro s d
    simp only [parse_port_from_args, portOverride]
    cases hf : findSubFrom portNeedle s.data 0 with
    | none => simp
    | some pos =>
      cases hp : parseU16 (portValueText s.data pos) with
      | none => simp [hp]
      | some v => simp [hp]
  · intro s v h
    simp only [portOverride] at h
    cases hf : findSubFrom portNeedle s.data 0 with
    | none => rw [hf] at h; exact absurd h (by simp)
    | some pos =>
      rw [hf] at h
      exact parseU16_le h
  · intro s d h
    simp only [parse_port_from_args]
    rw [h]

/-- Witness for the port-override theorem at concrete inputs. -/
theorem c4_port_override_parsing_witness :
    9001 ≤ 65535 ∧ parse_port_from_args "-x" 8080 = 8080 :=
  ⟨c4_port_override_parsing.2.2.2.1 "--port 9001" 9001 (by decide),
   c4_port_override_parsing.2.2.2.2 "-x" 8080 (by decide)⟩

/-- Unfolding equation for one loop iteration of the port probe. -/
theorem findPortAux_succ (avail : Nat → Bool) (start port fuel : Nat) :
    findPortAux avail start port (fuel + 1) =
      if avail port then port
      else if ((port + 1) % 65536 + 65536 - start) % 65536 > 10 then start
      else findPortAux avail start ((port + 1) % 65536) fuel := rfl

/-- If the first available port in the (wrapped) probe window is
`(start + i) % 65536`, the loop reaches it from any earlier probe
position. -/
theorem findPortAux_hits (avail : Nat → Bool) (start i : Nat)
    (hstart : start < 65536) (hi : i ≤ 10)
    (hav : avail ((start + i) % 65536) = true)
    (hprev : ∀ j, j < i → avail ((start + j) % 65536) = false) :
    ∀ d k, k + d = i →
      findPortAux avail start ((start + k) % 65536) (11 - k) = (start + i) % 65536 := by
  intro d
  induction d with
  | zero =>
    intro k hk
    have hk' : k = i := by omega
    subst hk'
    obtain ⟨f, hf⟩ : ∃ f, 11 - k = f + 1 := ⟨10 - k, by omega⟩
    rw [hf, findPortAux_succ, if_pos hav]
  | succ d ih =>
    intro k hk
    obtain ⟨f, hf⟩ : ∃ f, 11 - k = f + 1 := ⟨10 - k, by omega⟩
    rw [hf, findPortAux_succ, if_neg (by simp [hprev k (by omega)])]
    have hport2 : ((start + k) % 65536 + 1) % 65536 = (start + (k + 1)) % 65536 := by
      omega
    rw [hport2, if_neg (by omega)]
    have hfuel : f = 11 - (k + 1) := by omega
    rw [hfuel]
    exact ih (k + 1) (by omega)

/-- If every port in the (wrapped) probe window is occupied, the loop
falls back to the start port. -/
theorem findPortAux_exhausts (avail : Nat → Bool) (start : Nat)
    (hstart : start < 65536)
    (hall : ∀ i, i ≤ 10 → avail ((start + i) % 65536) = false) :
    ∀ d k, k + d = 10 → findPortAux avail start ((start + k) % 65536) (11 - k) = start := by
  intro d
  induction d with
  | zero =>
    intro k hk
    have hk' : k = 10 := by omega
    subst hk'
    obtain ⟨f, hf⟩ : ∃ f, 11 - 10 = f + 1 := ⟨0, by omega⟩
    rw [hf, findPortAux_succ, if_neg (by simp [hall 10 (by omega)])]
    have hport2 : ((start + 10) % 65536 + 1) % 65536 = (start + 11) % 65536 := by
      omega
    rw [hport2, if_pos (by omega)]
  | succ d ih =>
    intro k hk
    obtain ⟨f, hf⟩ : ∃ f, 11 - k = f + 1 := ⟨10 - k, by omega⟩
    rw [hf, findPortAux_succ, if_neg (by simp [hall k (by omega)])]
    have hport2 : ((start + k) % 65536 + 1) % 65536 = (start + (k + 1)) % 65536 := by
      omega
    rw [hport2, if_neg (by omega)]
    have hfuel : f = 11 - (k + 1) := by omega
    rw [hfuel]
    exact ih (k + 1) (by omega)

/-- C5 counterexample: the port counter is a `u16`, so at the top of the
range the probe wraps — with 65535 occupied and port 0 free, allocation
requested at 65535 returns 0, which is neither the start port nor any
port at or above it, refuting "the first available port among
P, P+1, ...". -/
theorem c5_counterexample :
    find_available_port (fun p => decide (p = 0)) 65535 = 0 ∧
    ¬ 65535 ≤ find_available_port (fun p => decide (p = 0)) 65535 := by
  exact ⟨by decide, by decide⟩

/-- C5 (amended): the port is a 16-bit counter, so for a requested port
`P < 65536` allocation returns the first available port among
`(P + i) % 65536` for `i = 0..10` — when `P + 10 ≤ 65535` no wrap occurs
and this is the first available among `P .. P+10`, in particular `P`
occupied with `P+1` free yields `P+1`; when `P ≥ 65526` the probe wraps
past 65535 into the low ports.  If every probed port is occupied the
original `P` is returned unchanged rather than an error. -/
theorem c5_port_allocation_amended (avail : Nat → Bool) (start : Nat) :
    (start < 65536 → ∀ i, i ≤ 10 → avail ((start + i) % 65536) = true →
      (∀ j, j < i → avail ((start + j) % 65536) = false) →
      find_available_port avail start = (start + i) % 65536) ∧
    (start + 10 < 65536 → avail start = false → avail (start + 1) = true →
      find_available_port avail start = start + 1) ∧
    (start < 65536 → (∀ i, i ≤ 10 → avail ((start + i) % 65536) = false) →
      find_available_port avail start = start) := by
  have hstart0 : ∀ h : start < 65536, (start + 0) % 65536 = start := fun h => by omega
  refine ⟨?_, ?_, ?_⟩
  · intro hstart i hi hav hprev
    have h := findPortAux_hits avail start i hstart hi hav hprev i 0 (by omega)
    rw [hstart0 hstart] at h
    exact h
  · intro hstart h0 h1
    have hlt : start < 65536 := by omega
    have hmod1 : (start + 1) % 65536 = start + 1 := by omega
    have h := findPortAux_hits avail start 1 hlt (by omega)
      (by rw [hmod1]; exact h1)
      (by
        intro j hj
        have hj0 : j = 0 := by omega
        subst hj0
        rw [hstart0 hlt]
        exact h0)
      1 0 (by omega)
    rw [hstart0 hlt, hmod1] at h
    exact h
  · intro hstart hall
    have h := findPortAux_exhausts avail start hstart hall 10 0 (by omega)
    rw [hstart0 hstart] at h
    exact h

/-- Witness for the amended port-allocation theorem: port 8080 occupied,
8081 free, far from the wrap boundary. -/
theorem c5_port_allocation_amended_witness :
    find_available_port (fun p => decide (8081 ≤ p)) 8080 = 8080 + 1 :=
  (c5_port_allocation_amended (fun p => decide (8081 ≤ p)) 8080).2.1 (by decide)
    (by decide) (by decide)

/-- No token produced by the tokenizer loop contains a quote character, as
long as the accumulator does not. -/
theorem parseArgsGo_no_quotes : ∀ (cs : List Char) (q : Bool) (cur : List Char),
    dquote ∉ cur → squote ∉ cur →
    ∀ t ∈ parseArgsGo cs q cur, dquote ∉ t ∧ squote ∉ t := by
  intro cs
  induction cs with
  | nil =>
    intro q cur h1 h2 t ht
    simp only [parseArgsGo] at ht
    by_cases hcur : cur = []
    · rw [if_pos hcur] at ht
      exact absurd ht (List.not_mem_nil t)
    · rw [if_neg hcur] at ht
      rcases List.mem_singleton.mp ht with rfl
      exact ⟨h1, h2⟩
  | cons c rest ih =>
    intro q cur h1 h2 t ht
    simp only [parseArgsGo] at ht
    by_cases hq : c = dquote ∨ c = squote
    · rw [if_pos hq] at ht
      exact ih _ _ h1 h2 t ht
    · rw [if_neg hq] at ht
      push_neg at hq
      by_cases hsp : c = ' ' ∧ q = false
      · rw [if_pos hsp] at ht
        by_cases hcur : cur = []
        · rw [if_pos hcur] at ht
          exact ih _ _ (by simp) (by simp) t ht
        · rw [if_neg hcur] at ht
          rcases List.mem_cons.mp ht with rfl | ht'
          · exact ⟨h1, h2⟩
          · exact ih _ _ (by simp) (by simp) t ht'
      · rw [if_neg hsp] at ht
        refine ih _ _ ?_ ?_ t ht
        · simp [List.mem_append, h1, hq.1, Ne.symm hq.1]
        · simp [List.mem_append, h2, hq.2, Ne.symm hq.2]

/-- On quote-free input the tokenizer loop is the plain space splitter. -/
theorem parseArgsGo_eq_spaceTokensGo : ∀ (cs cur : List Char),
    (∀ c ∈ cs, c ≠ dquote ∧ c ≠ squote) →
    parseArgsGo cs false cur = spaceTokensGo cs cur := by
  intro cs
  induction cs with
  | nil => intro cur _; rfl
  | cons c rest ih =>
    intro cur h
    have hc := h c (List.mem_cons_self c rest)
    have hrest : ∀ c' ∈ rest, c' ≠ dquote ∧ c' ≠ squote :=
      fun c' hc' => h c' (List.mem_cons_of_mem c hc')
    simp only [parseArgsGo, spaceTokensGo]
    rw [if_neg (by rcases hc with ⟨hd, hs⟩; rintro (h | h) <;> [exact hd h; exact hs h])]
    by_cases hsp : c = ' '
    · rw [if_pos ⟨hsp, by trivial⟩, if_pos hsp]
      by_cases hcur : cur = []
      · rw [if_pos hcur, if_pos hcur]
        exact ih [] hrest
      · rw [if_neg hcur, if_neg hcur, ih [] hrest]
    · rw [if_neg (fun hand => hsp hand.1), if_neg hsp]
      exact ih (cur ++ [c]) hrest

/-- C6 counterexample: the tokenizer splits only on space characters, not
on all whitespace; an input holding a tab stays one token, while the claim
predicts a split into two. -/
theorem c6_counterexample :
    parse_custom_args "a\tb" = ["a\tb"] ∧ parse_custom_args "a\tb" ≠ ["a", "b"] := by
  exact ⟨by decide, by decide⟩

/-- C6 (amended): the tokenizer splits its input on space characters
(U+0020), treats quoted substrings as one token with the quote characters
removed, is total on every input including unbalanced quotes, and still
emits a trailing partial token; `--foo "a b" --bar` tokenizes to
`["--foo", "a b", "--bar"]`. -/
theorem c6_tokenizer_amended :
    (parse_custom_args "--foo \"a b\" --bar" = ["--foo", "a b", "--bar"]) ∧
    (parse_custom_args "--foo \"a b" = ["--foo", "a b"]) ∧
    (∀ s : String, ∀ t ∈ parse_custom_args s, dquote ∉ t.data ∧ squote ∉ t.data) ∧
    (∀ s : String, (∀ c ∈ s.data, c ≠ dquote ∧ c ≠ squote) →
      parse_custom_args s = (spaceTokens s.data).map (fun cs => String.mk cs)) := by
  refine ⟨by decide, by decide, ?_, ?_⟩
  · intro s t ht
    simp only [parse_custom_args, List.mem_map] at ht
    obtain ⟨cs, hcs, rfl⟩ := ht
    exact parseArgsGo_no_quotes s.data false [] (by simp) (by simp) cs hcs
  · intro s h
    simp only [parse_custom_args, spaceTokens]
    rw [parseArgsGo_eq_spaceTokensGo s.data [] h]

/-- Witness for the amended tokenizer theorem at concrete inputs. -/
theorem c6_tokenizer_amended_witness :
    (dquote ∉ ("a b" : String).data ∧ squote ∉ ("a b" : String).data) ∧
    parse_custom_args "x y" = (spaceTokens ("x y" : String).data).map (fun cs => String.mk cs) :=
  ⟨c6_tokenizer_amended.2.2.1 "--foo \"a b\" --bar" "a b" (by decide),
   c6_tokenizer_amended.2.2.2 "x y" (by decide)⟩

/-- The trimmed append is exactly the last 1000 lines of the appended
log. -/
theorem add_output_line_eq_rtake (out : List String) (line : String) :
    add_output_line out line = (out ++ [line]).rtake 1000 := by
  simp only [add_output_line, List.rtake]
  split
  · rfl
  · rw [Nat.sub_eq_zero_of_le (by omega), List.drop_zero]

/-- Length of a trimmed append. -/
theorem add_output_line_length (out : List String) (line : String) :
    (add_output_line out line).length = min 1000 (out.length + 1) := by
  simp only [add_output_line]
  split <;>
    (simp only [List.length_drop, List.length_append, List.length_singleton] at *; omega)

/-- Taking a suffix bound, appending, and taking it again loses nothing
beyond taking it once on the full list. -/
theorem rtake_append_rtake {α : Type} (a b : List α) (n : Nat) :
    ((a.rtake n) ++ b).rtake n = (a ++ b).rtake n := by
  have h1 := @List.rtake_eq_reverse_take_reverse α (a.rtake n ++ b) n
  have h2 := @List.rtake_eq_reverse_take_reverse α (a ++ b) n
  have h3 := @List.rtake_eq_reverse_take_reverse α a n
  rw [h1, h2, List.reverse_append, List.reverse_append, h3, List.reverse_reverse,
    List.take_append_eq_append_take, List.take_append_eq_append_take,
    List.take_take, min_eq_left (Nat.sub_le n _)]

/-- Folding trimmed appends over a line list keeps exactly the last 1000
lines of everything appended. -/
theorem foldl_add_output_line (xs : List String) :
    ∀ acc : List String, acc.length ≤ 1000 →
      List.foldl add_output_line acc xs = (acc ++ xs).rtake 1000 := by
  induction xs with
  | nil =>
    intro acc h
    simp only [List.foldl_nil, List.append_nil, List.rtake]
    rw [Nat.sub_eq_zero_of_le h, List.drop_zero]
  | cons x xs ih =>
    intro acc h
    simp only [List.foldl_cons]
    rw [ih (add_output_line acc x) (by rw [add_output_line_length]; omega),
      add_output_line_eq_rtake, rtake_append_rtake, List.append_assoc,
      List.singleton_append]

/-- C2 (amended): every append through `add_output_line` (the pump's
stdout and stderr lines) keeps at most 1000 lines and discards the oldest
first; appending 1500 lines to a fresh record leaves exactly the most
recent 1000 in order.  The synthetic process-exit line, however, is pushed
without the trim, so a full log grows to 1001 lines on exit. -/
theorem c2_log_retention_amended :
    (∀ out line, add_output_line out line = (out ++ [line]).rtake 1000) ∧
    (∀ out line, (add_output_line out line).length = min 1000 (out.length + 1)) ∧
    (∀ xs : List String, List.foldl add_output_line [] xs = xs.rtake 1000) ∧
    (∀ xs : List String, xs.length = 1500 →
      List.foldl add_output_line [] xs = xs.drop 500) ∧
    (∀ p code, (pumpExitRecUpdate p code).output = p.output ++ [exitLine code] ∧
      (pumpExitRecUpdate p code).output.length = p.output.length + 1) := by
  have hfold : ∀ xs : List String, List.foldl add_output_line [] xs = xs.rtake 1000 :=
    fun xs => by simpa using foldl_add_output_line xs [] (by simp)
  refine ⟨add_output_line_eq_rtake, add_output_line_length, hfold, ?_, ?_⟩
  · intro xs h
    rw [hfold xs]
    simp only [List.rtake, h]
  · intro p code
    exact ⟨rfl, by simp [pumpExitRecUpdate]⟩

/-- Witness for the amended retention theorem: 1500 concrete lines. -/
theorem c2_log_retention_amended_witness :
    List.foldl add_output_line [] (List.replicate 1500 "x") =
      (List.replicate 1500 "x").drop 500 :=
  c2_log_retention_amended.2.2.2.1 (List.replicate 1500 "x")
    (List.length_replicate 1500 "x")

/-- The concrete launch-and-pump-start state is reachable. -/
theorem reach_c2Base : Reach c2Base :=
  Reach.step
    (Reach.step
      (Reach.step Reach.init (Step.launchMeta sysInit "a" sampleRec rfl rfl rfl rfl))
      (Step.launchHandle (launchMetaState sysInit "a" sampleRec) "a" (by decide)))
    (Step.pumpStart (launchHandleState (launchMetaState sysInit "a" sampleRec) "a") "a"
      (by decide))

/-- The pump-loop phase of the concrete execution stays 3. -/
theorem c2Lines_phase (n : Nat) : (c2Lines n).phase "a" = 3 := by
  induction n with
  | zero => decide
  | succ n ih => exact ih

/-- Every prefix of the concrete execution is reachable. -/
theorem reach_c2Lines (n : Nat) : Reach (c2Lines n) := by
  induction n with
  | zero => exact reach_c2Base
  | succ n ih => exact Reach.step ih (Step.pumpLine (c2Lines n) "a" "x" (c2Lines_phase n))

/-- The concrete record after `n` pump lines holds `min 1000 n` lines. -/
theorem c2Lines_record (n : Nat) :
    ∃ p : ProcessInfo, (c2Lines n).running_processes "a" = some p ∧
      p.output.length = min 1000 n := by
  induction n with
  | zero =>
    exact ⟨{ sampleRec with status := ProcessStatus.Running }, by decide, by decide⟩
  | succ n ih =>
    obtain ⟨p, hp, hlen⟩ := ih
    refine ⟨{ p with output := add_output_line p.output "x" }, ?_, ?_⟩
    · show (updRecord (c2Lines n).running_processes "a"
        (fun q => { q with output := add_output_line q.output "x" })) "a" = _
      simp only [updRecord, hp, mapSet, if_pos]
    · show (add_output_line p.output "x").length = min 1000 (n + 1)
      rw [add_output_line_length, hlen]
      omega

/-- C2 counterexample: in a reachable execution a record's log exceeds
1000 lines — after 1000 pump lines fill the log, the pump-exit append
(which bypasses the trim) leaves 1001 lines, refuting the claim that the
bound holds on every append path. -/
theorem c2_counterexample :
    Reach c2State ∧
    ∃ p : ProcessInfo, c2State.running_processes "a" = some p ∧
      p.output.length = 1001 ∧ ¬ p.output.length ≤ 1000 := by
  obtain ⟨p, hp, hlen⟩ := c2Lines_record 1000
  have hlen2 : (pumpExitRecUpdate p 0).output.length = 1001 := by
    simp [pumpExitRecUpdate, hlen]
  refine ⟨Reach.step (reach_c2Lines 1000)
      (Step.pumpExit (c2Lines 1000) "a" 0 (c2Lines_phase 1000)),
    pumpExitRecUpdate p 0, ?_, hlen2, by omega⟩
  show (updRecord (c2Lines 1000).running_processes "a"
      (fun q => pumpExitRecUpdate q 0)) "a" = _
  simp only [updRecord, hp, mapSet, if_pos]

/-- Unfolding of `get_process_logs` when the cursor is behind the log. -/
theorem get_logs_behind (m : String → Option ProcessInfo) (id : String)
    (r : ProcessInfo) (h : m id = some r)
    (hlt : r.last_sent_line.getD 0 < r.output.length) :
    get_process_logs m id =
      (mapSet m id (some { r with last_sent_line := some r.output.length }),
       Except.ok ⟨r.output.drop (r.last_sent_line.getD 0), isRunningStatus r.status, none⟩) := by
  simp only [get_process_logs, h, if_pos hlt]

/-- Unfolding of `get_process_logs` when the cursor has caught up. -/
theorem get_logs_caught (m : String → Option ProcessInfo) (id : String)
    (r : ProcessInfo) (h : m id = some r)
    (hge : ¬ r.last_sent_line.getD 0 < r.output.length) :
    get_process_logs m id = (m, Except.ok ⟨[], isRunningStatus r.status, none⟩) := by
  simp only [get_process_logs, h, if_neg hge]

/-- C3 counterexample: with a full (1000-line) fully delivered log, one
more line appended through the pump is silently lost to the poller — the
trim shifts the log under the cursor, `get_output` returns no lines and
does not advance the cursor, refuting "returns exactly the lines appended
since the previous call". -/
theorem c3_counterexample :
    (∃ p : ProcessInfo, c3Map2 "p" = some p ∧ p.output.getLast? = some "new") ∧
    (get_process_logs c3Map2 "p").2 = Except.ok ⟨[], true, none⟩ ∧
    (get_process_logs c3Map2 "p").1 = c3Map2 ∧
    ([] : List String) ≠ ["new"] :=
  ⟨⟨_, rfl, by decide⟩, rfl, rfl, by decide⟩

/-- C3 (amended): `get_output` returns the log suffix past the per-record
cursor and advances the cursor to the log length.  Provided the log has
not been trimmed since the previous call (the total line count stays
within the 1000-line cap), this is exactly the lines appended since that
call; two consecutive calls with no intervening appends both return an
empty list and the second leaves the record untouched. -/
theorem c3_polling_amended (procs : String → Option ProcessInfo) (id : String)
    (p : ProcessInfo) (xs : List String)
    (hcursor : p.last_sent_line = some p.output.length)
    (hroom : p.output.length + xs.length ≤ 1000) :
    (get_process_logs (mapSet procs id
        (some { p with output := List.foldl add_output_line p.output xs })) id).2 =
      Except.ok ⟨xs, isRunningStatus p.status, none⟩ ∧
    (∃ q, (get_process_logs (mapSet procs id
        (some { p with output := List.foldl add_output_line p.output xs })) id).1 id =
          some q ∧ q.last_sent_line = some (p.output.length + xs.length)) ∧
    (get_process_logs ((get_process_logs (mapSet procs id
        (some { p with output := List.foldl add_output_line p.output xs })) id).1) id).2 =
      Except.ok ⟨[], isRunningStatus p.status, none⟩ ∧
    (get_process_logs ((get_process_logs (mapSet procs id
        (some { p with output := List.foldl add_output_line p.output xs })) id).1) id).1 =
      (get_process_logs (mapSet procs id
        (some { p with output := List.foldl add_output_line p.output xs })) id).1 := by
  have hout : List.foldl add_output_line p.output xs = p.output ++ xs := by
    rw [foldl_add_output_line xs p.output (by omega)]
    simp only [List.rtake]
    rw [Nat.sub_eq_zero_of_le (by simp; omega), List.drop_zero]
  set q0 : ProcessInfo := { p with output := List.foldl add_output_line p.output xs }
    with hq0
  have hm1 : mapSet procs id (some q0) id = some q0 := by simp [mapSet]
  have hq0out : q0.output = p.output ++ xs := hout
  have hq0cur : q0.last_sent_line = some p.output.length := hcursor
  by_cases hxs : xs = []
  · subst hxs
    have hge : ¬ q0.last_sent_line.getD 0 < q0.output.length := by
      rw [hq0cur, hq0out]
      simp
    have h1 := get_logs_caught (mapSet procs id (some q0)) id q0 hm1 hge
    refine ⟨by rw [h1], ⟨q0, ?_, ?_⟩, by rw [h1]; rw [h1], by rw [h1]; rw [h1]⟩
    · rw [h1]; exact hm1
    · rw [hq0cur]; simp
  · have hlt : q0.last_sent_line.getD 0 < q0.output.length := by
      rw [hq0cur, hq0out]
      simp only [Option.getD_some, List.length_append]
      have : xs.length ≠ 0 := fun h => hxs (List.eq_nil_of_length_eq_zero h)
      omega
    have h1 := get_logs_behind (mapSet procs id (some q0)) id q0 hm1 hlt
    set q1 : ProcessInfo := { q0 with last_sent_line := some q0.output.length } with hq1
    have hm2 : (get_process_logs (mapSet procs id (some q0)) id).1 id = some q1 := by
      rw [h1]; simp [mapSet]
    have hq1cur : q1.last_sent_line = some (p.output.length + xs.length) := by
      simp [hq1, hout]
    have hge2 : ¬ q1.last_sent_line.getD 0 < q1.output.length := by
      rw [hq1cur]
      show ¬ _ < q0.output.length
      rw [hq0out]
      simp
    have h2 := get_logs_caught _ id q1 hm2 hge2
    refine ⟨?_, ⟨q1, hm2, hq1cur⟩, ?_, ?_⟩
    · rw [h1]
      show Except.ok (ProcessOutput.mk (q0.output.drop (q0.last_sent_line.getD 0))
        (isRunningStatus q0.status) none) = _
      rw [hq0cur, hq0out]
      simp only [Option.getD_some, List.drop_left]
    · rw [h2]
    · rw [h2]

/-- Witness for the amended polling theorem at a concrete record. -/
theorem c3_polling_amended_witness :
    (get_process_logs (mapSet wMap "a"
        (some { wRec with output := List.foldl add_output_line wRec.output ["l2"] })) "a").2 =
      Except.ok ⟨["l2"], isRunningStatus wRec.status, none⟩ :=
  (c3_polling_amended wMap "a" wRec ["l2"] rfl (by decide)).1

/-- Terminating an identifier absent from both maps changes nothing and
still succeeds. -/
theorem terminate_noop (st : RegState) (id : String) (k : Bool) (lg : List String)
    (hc : st.child_processes id = false) (hr : st.running_processes id = none) :
    terminate_process st id k lg = (st, lg, true) := by
  simp only [terminate_process, hc, Bool.false_eq_true, if_false]
  have hA : mapSet (updRecord st.running_processes id
      (fun p => { p with status := ProcessStatus.Stopped })) id none =
      st.running_processes := by
    simp only [updRecord, hr]
    funext x
    by_cases hx : x = id
    · subst hx; simp [mapSet, hr]
    · simp [mapSet, hx]
  have hB : boolSet st.child_processes id false = st.child_processes := by
    funext x
    by_cases hx : x = id
    · subst hx; simp [boolSet, hc]
    · simp [boolSet, hx]
  rw [hA, hB]

/-- C9: terminate is idempotent and best-effort — it always reports
success regardless of the kill outcome; after one call neither the handle
nor the metadata record remains, and a second call with the same
identifier is a complete no-op that still succeeds. -/
theorem c9_terminate_idempotent (st : RegState) (id : String) (k1 k2 : Bool)
    (lg : List String) :
    ((terminate_process st id k1 lg).1.child_processes id = false) ∧
    ((terminate_process st id k1 lg).1.running_processes id = none) ∧
    ((terminate_process st id k1 lg).2.2 = true) ∧
    (terminate_process (terminate_process st id k1 lg).1 id k2
        ((terminate_process st id k1 lg).2.1) =
      ((terminate_process st id k1 lg).1, (terminate_process st id k1 lg).2.1, true)) := by
  refine ⟨by simp [terminate_process, boolSet], by simp [terminate_process, mapSet],
    rfl, ?_⟩
  have hchild : (terminate_process st id k1 lg).1.child_processes id = false := by
    simp [terminate_process, boolSet]
  have hrun : (terminate_process st id k1 lg).1.running_processes id = none := by
    simp [terminate_process, mapSet]
  exact terminate_noop (terminate_process st id k1 lg).1 id k2
    (terminate_process st id k1 lg).2.1 hchild hrun

/-- C10: a successful `get_output` result always carries
`return_code = none` — the exit code is never delivered through the poll
result, even after exit; it is only observable as the synthetic exit line
appended to the log — and `is_running` is true exactly when the record
status is `Starting` or `Running`. -/
theorem c10_poll_result_shape :
    (∀ (procs : String → Option ProcessInfo) (id : String) (p : ProcessInfo),
      procs id = some p →
      ∃ r, (get_process_logs procs id).2 = Except.ok r ∧
        r.return_code = none ∧
        (r.is_running = true ↔
          p.status = ProcessStatus.Starting ∨ p.status = ProcessStatus.Running)) ∧
    (∀ p code, (pumpExitRecUpdate p code).output.getLast? = some (exitLine code) ∧
      (pumpExitRecUpdate p code).status = ProcessStatus.Stopped) := by
  constructor
  · intro procs id p h
    by_cases hlt : p.last_sent_line.getD 0 < p.output.length
    · refine ⟨_, congrArg Prod.snd (get_logs_behind procs id p h hlt), rfl, ?_⟩
      cases hs : p.status <;> simp [isRunningStatus, hs]
    · refine ⟨_, congrArg Prod.snd (get_logs_caught procs id p h hlt), rfl, ?_⟩
      cases hs : p.status <;> simp [isRunningStatus, hs]
  · intro p code
    exact ⟨by simp [pumpExitRecUpdate], rfl⟩

/-- Witness for the poll-result theorem at a concrete record. -/
theorem c10_poll_result_shape_witness :
    ∃ r, (get_process_logs wMap "a").2 = Except.ok r ∧
      r.return_code = none ∧
      (r.is_running = true ↔
        wRec.status = ProcessStatus.Starting ∨ wRec.status = ProcessStatus.Running) :=
  c10_poll_result_shape.1 wMap "a" wRec rfl

/-- `candLE` in terms of the comparator. -/
theorem candLE_iff (a b : String × Option Nat) :
    candLE a b = true ↔ candCmp a b ≠ Ordering.gt := by
  cases h : candCmp a b <;> simp [candLE, h] <;> rfl

/-- The order `candLE` spelt out: creation time descending, entries with
a time before entries without, reverse name order among entries without a
time. -/
theorem candLE_characterization (a b : String × Option Nat) :
    candLE a b = true ↔
      (match a.2, b.2 with
       | some ta, some tb => tb ≤ ta
       | some _, none => True
       | none, some _ => False
       | none, none => b.1 ≤ a.1) := by
  rw [candLE_iff]
  rcases a with ⟨na, ta⟩
  rcases b with ⟨nb, tb⟩
  cases ta with
  | none =>
    cases tb with
    | none =>
      show compare nb na ≠ Ordering.gt ↔ nb ≤ na
      exact compare_le_iff_le
    | some tb => simp [candCmp]
  | some ta =>
    cases tb with
    | none => simp [candCmp]
    | some tb =>
      show compare tb ta ≠ Ordering.gt ↔ tb ≤ ta
      exact compare_le_iff_le

/-- `candLE` is reflexive. -/
theorem candLE_refl (a : String × Option Nat) : candLE a a = true := by
  rw [candLE_characterization]
  cases ha : a.2 <;> simp [ha]

/-- `candLE` is total. -/
theorem candLE_total (a b : String × Option Nat) : candLE a b || candLE b a := by
  rw [Bool.or_eq_true, candLE_characterization, candLE_characterization]
  rcases a with ⟨na, ta⟩
  rcases b with ⟨nb, tb⟩
  cases ta <;> cases tb
  · exact le_total nb na
  · exact Or.inr trivial
  · exact Or.inl trivial
  · exact Nat.le_total _ _

/-- `candLE` is transitive. -/
theorem candLE_trans (a b c : String × Option Nat) (h1 : candLE a b)
    (h2 : candLE b c) : candLE a c := by
  rw [candLE_characterization] at h1 h2 ⊢
  rcases a with ⟨na, ta⟩
  rcases b with ⟨nb, tb⟩
  rcases c with ⟨nc, tc⟩
  cases ta <;> cases tb <;> cases tc <;>
    first
      | exact le_trans h2 h1
      | exact False.elim h2
      | exact False.elim h1
      | exact trivial

/-- The head of the ranked candidate list ranks no worse than every
candidate. -/
theorem ranked_head_min (fs : FsModel) (cfg : GlobalConfig) (exe : String)
    (c : String × Option Nat) (rest : List (String × Option Nat))
    (h : rankedCandidates fs cfg exe = c :: rest) :
    ∀ d ∈ candidateList fs cfg exe, candLE c d = true := by
  intro d hd
  have hmem : d ∈ List.mergeSort (candidateList fs cfg exe) candLE :=
    List.mem_mergeSort.mpr hd
  have hpw := List.sorted_mergeSort candLE_trans candLE_total
    (candidateList fs cfg exe)
  rw [show List.mergeSort (candidateList fs cfg exe) candLE = c :: rest from h] at hmem hpw
  rcases List.mem_cons.mp hmem with rfl | hrest
  · exact candLE_refl d
  · exact (List.pairwise_cons.mp hpw).1 d hrest

/-- C1: executable resolution follows the specified algorithm — the
preferred path is built with the active version name taking precedence,
else the active folder, else the executable folder; an existing preferred
path is returned unchanged with no fallback scan; otherwise the qualifying
`versions` subdirectories are ranked (creation time descending, no-time
entries last, reverse name among no-time entries) and the top candidate is
adopted as the new active version and returned; with no candidate the
preferred path is returned unchanged. -/
theorem c1_resolver (fs : FsModel) (cfg : GlobalConfig) (exe : String) :
    (∀ v, cfg.active_executable_version = some v →
      preferredPath cfg exe = [cfg.executable_folder, "versions", v, exe]) ∧
    (∀ p, cfg.active_executable_version = none → cfg.active_executable_folder = some p →
      preferredPath cfg exe = [p, exe]) ∧
    (cfg.active_executable_version = none → cfg.active_executable_folder = none →
      preferredPath cfg exe = [cfg.executable_folder, exe]) ∧
    (fs.pathExists (preferredPath cfg exe) = true →
      resolve_llama_server_path_with_fallback fs cfg exe = (preferredPath cfg exe, cfg)) ∧
    (fs.pathExists (preferredPath cfg exe) = false →
      candidateList fs cfg exe = [] →
      resolve_llama_server_path_with_fallback fs cfg exe = (preferredPath cfg exe, cfg)) ∧
    (∀ chosen rest, fs.pathExists (preferredPath cfg exe) = false →
      rankedCandidates fs cfg exe = chosen :: rest →
      resolve_llama_server_path_with_fallback fs cfg exe =
        ([cfg.executable_folder, "versions", chosen.1, exe],
         { cfg with
           active_executable_folder :=
             some (pathToString [cfg.executable_folder, "versions", chosen.1]),
           active_executable_version := some chosen.1 }) ∧
      chosen ∈ candidateList fs cfg exe ∧
      ∀ d ∈ candidateList fs cfg exe, candLE chosen d = true) ∧
    (∀ a b, candLE a b = true ↔
      (match a.2, b.2 with
       | some ta, some tb => tb ≤ ta
       | some _, none => True
       | none, some _ => False
       | none, none => b.1 ≤ a.1)) := by
  refine ⟨?_, ?_, ?_, ?_, ?_, ?_, candLE_characterization⟩
  · intro v hv
    simp [preferredPath, hv]
  · intro p hv hp
    simp [preferredPath, hv, hp]
  · intro hv hp
    simp [preferredPath, hv, hp]
  · intro h
    simp [resolve_llama_server_path_with_fallback, h]
  · intro h hc
    simp only [resolve_llama_server_path_with_fallback, h, Bool.false_eq_true, if_false]
    rw [show rankedCandidates fs cfg exe = [] from by
      rw [rankedCandidates, hc, List.mergeSort_nil]]
  · intro chosen rest h hr
    refine ⟨?_, ?_, ranked_head_min fs cfg exe chosen rest hr⟩
    · simp only [resolve_llama_server_path_with_fallback, h, Bool.false_eq_true, if_false]
      rw [show rankedCandidates fs cfg exe = chosen :: rest from hr]
    · have hmem : chosen ∈ List.mergeSort (candidateList fs cfg exe) candLE := by
        rw [show List.mergeSort (candidateList fs cfg exe) candLE = chosen :: rest from hr]
        exact List.mem_cons_self chosen rest
      exact List.mem_mergeSort.mp hmem

/-- Witness for the resolver theorem: active version `v1` missing, single
fallback candidate `v2` adopted. -/
theorem c1_resolver_witness :
    resolve_llama_server_path_with_fallback w1fs w1cfg "srv" =
      (["/opt", "versions", "v2", "srv"],
       { w1cfg with active_executable_folder := some "/opt/versions/v2",
                    active_executable_version := some "v2" }) :=
  ((c1_resolver w1fs w1cfg "srv").2.2.2.2.2.1 ("v2", some 5) []
    (by decide)
    (by rw [rankedCandidates,
        show candidateList w1fs w1cfg "srv" = [("v2", some 5)] from by decide,
        List.mergeSort_singleton])).1

/-- Lookup of `updRecord` at a different key. -/
theorem updRecord_lookup_ne (m : String → Option ProcessInfo) (id : String)
    (f : ProcessInfo → ProcessInfo) (x : String) (h : x ≠ id) :
    updRecord m id f x = m x := by
  unfold updRecord
  cases m id with
  | none => rfl
  | some p => simp [mapSet, h]

/-- Lookup of `updRecord` at the updated key. -/
theorem updRecord_lookup_eq (m : String → Option ProcessInfo) (id : String)
    (f : ProcessInfo → ProcessInfo) :
    updRecord m id f id = (m id).map f := by
  unfold updRecord
  cases hm : m id with
  | none => simp [hm]
  | some p => simp [mapSet, hm]

/-- Unfolding of `get_process_logs` for an unknown id. -/
theorem get_logs_missing (m : String → Option ProcessInfo) (id : String)
    (h : m id = none) :
    get_process_logs m id = (m, Except.error "Process not found") := by
  simp only [get_process_logs, h]

/-- A record present after a `get_process_logs` call was present before,
with the same status and output. -/
theorem getLogs_fst_some (m : String → Option ProcessInfo) (id0 x : String)
    (p2 : ProcessInfo) (h : (get_process_logs m id0).1 x = some p2) :
    ∃ p1, m x = some p1 ∧ p2.status = p1.status ∧ p2.output = p1.output := by
  cases hm : m id0 with
  | none =>
    rw [get_logs_missing m id0 hm] at h
    exact ⟨p2, h, rfl, rfl⟩
  | some p =>
    by_cases hlt : p.last_sent_line.getD 0 < p.output.length
    · rw [get_logs_behind m id0 p hm hlt] at h
      by_cases hx : x = id0
      · subst hx
        simp [mapSet] at h
        exact ⟨p, hm, by rw [← h], by rw [← h]⟩
      · simp only [mapSet, if_neg hx] at h
        exact ⟨p2, h, rfl, rfl⟩
    · rw [get_logs_caught m id0 p hm hlt] at h
      exact ⟨p2, h, rfl, rfl⟩

/-- A record present before a `get_process_logs` call stays present. -/
theorem getLogs_fst_ne_none (m : String → Option ProcessInfo) (id0 x : String)
    (h : m x ≠ none) : (get_process_logs m id0).1 x ≠ none := by
  cases hm : m id0 with
  | none => rw [get_logs_missing m id0 hm]; exact h
  | some p =>
    by_cases hlt : p.last_sent_line.getD 0 < p.output.length
    · rw [get_logs_behind m id0 p hm hlt]
      by_cases hx : x = id0
      · subst hx; simp [mapSet]
      · simp only [mapSet, if_neg hx]; exact h
    · rw [get_logs_caught m id0 p hm hlt]; exact h

/-- Every reachable state satisfies the inductive invariant. -/
theorem reach_inv : ∀ σ, Reach σ → Inv σ := by
  intro σ h
  induction h with
  | init =>
    refine ⟨fun id h => by simp [sysInit] at h, fun id _ => rfl,
      fun id h => by simp [sysInit] at h, fun id h => by simp [sysInit] at h,
      fun id _ => rfl, fun id p _ h => by simp [sysInit] at h,
      fun id p _ h => by simp [sysInit] at h, fun id p _ h => by simp [sysInit] at h⟩
  | @step σ0 σ1 hR hS ih =>
    obtain ⟨i1, i2, i3, i4, i5, i6, i7, i8⟩ := ih
    cases hS with
    | launchMeta id info hphase hstatus houtput hcursor =>
      refine ⟨?_, ?_, ?_, ?_, ?_, ?_, ?_, ?_⟩
      · intro x hx
        by_cases he : x = id
        · subst he; simp [launchMetaState, mapSet]
        · simpa [launchMetaState, mapSet, he] using i1 x hx
      · intro x hph
        by_cases he : x = id
        · subst he; exact i2 x (by rw [hphase]; omega)
        · exact i2 x (by simpa [launchMetaState, natSet, he] using hph)
      · intro x hph
        by_cases he : x = id
        · subst he; simp [launchMetaState, mapSet]
        · have hp0 : σ0.phase x = 1 := by simpa [launchMetaState, natSet, he] using hph
          simpa [launchMetaState, mapSet, he] using i3 x hp0
      · intro x ht
        by_cases he : x = id
        · subst he
          exact absurd (i4 x ht).1 (by rw [hphase]; omega)
        · exact ⟨by simpa [launchMetaState, natSet, he] using (i4 x ht).1, (i4 x ht).2⟩
      · intro x hph
        by_cases he : x = id
        · subst he; simp [launchMetaState, natSet] at hph
        · have hp0 : σ0.phase x = 0 := by simpa [launchMetaState, natSet, he] using hph
          simpa [launchMetaState, mapSet, he] using i5 x hp0
      · intro x p hph hsome
        by_cases he : x = id
        · subst he
          simp [launchMetaState, mapSet] at hsome
          rw [← hsome]
          exact hstatus
        · exact i6 x p (by simpa [launchMetaState, natSet, he] using hph)
            (by simpa [launchMetaState, mapSet, he] using hsome)
      · intro x p hph hsome
        by_cases he : x = id
        · subst he; simp [launchMetaState, natSet] at hph
        · exact i7 x p (by simpa [launchMetaState, natSet, he] using hph)
            (by simpa [launchMetaState, mapSet, he] using hsome)
      · intro x p hph hsome
        by_cases he : x = id
        · subst he; simp [launchMetaState, natSet] at hph
        · exact i8 x p (by simpa [launchMetaState, natSet, he] using hph)
            (by simpa [launchMetaState, mapSet, he] using hsome)
    | launchHandle id hphase =>
      refine ⟨?_, ?_, ?_, ?_, ?_, ?_, ?_, ?_⟩
      · intro x hx
        by_cases he : x = id
        · subst he; exact i3 x hphase
        · exact i1 x (by simpa [launchHandleState, boolSet, he] using hx)
      · intro x hph
        by_cases he : x = id
        · subst he; simp [launchHandleState, natSet] at hph
        · simp only [launchHandleState, boolSet]
          simp only [he, if_false]
          exact i2 x (by simpa [launchHandleState, natSet, he] using hph)
      · intro x hph
        by_cases he : x = id
        · subst he; simp [launchHandleState, natSet] at hph
        · exact i3 x (by simpa [launchHandleState, natSet, he] using hph)
      · intro x ht
        by_cases he : x = id
        · subst he
          exact absurd (i4 x ht).1 (by rw [hphase]; omega)
        · refine ⟨by simpa [launchHandleState, natSet, he] using (i4 x ht).1, ?_⟩
          simpa [launchHandleState, boolSet, he] using (i4 x ht).2
      · intro x hph
        by_cases he : x = id
        · subst he; simp [launchHandleState, natSet] at hph
        · exact i5 x (by simpa [launchHandleState, natSet, he] using hph)
      · intro x p hph hsome
        by_cases he : x = id
        · subst he; exact i6 x p (by rw [hphase]; omega) hsome
        · exact i6 x p (by simpa [launchHandleState, natSet, he] using hph) hsome
      · intro x p hph hsome
        by_cases he : x = id
        · subst he; simp [launchHandleState, natSet] at hph
        · exact i7 x p (by simpa [launchHandleState, natSet, he] using hph) hsome
      · intro x p hph hsome
        by_cases he : x = id
        · subst he; simp [launchHandleState, natSet] at hph
        · exact i8 x p (by simpa [launchHandleState, natSet, he] using hph) hsome
    | pumpStart id hphase =>
      refine ⟨?_, ?_, ?_, ?_, ?_, ?_, ?_, ?_⟩
      · intro x hx
        simp only [pumpStartState]
        by_cases he : x = id
        · subst he
          rw [updRecord_lookup_eq]
          cases hm : σ0.running_processes x with
          | none => exact absurd hm (i1 x hx)
          | some p => simp
        · rw [updRecord_lookup_ne _ _ _ _ he]
          exact i1 x hx
      · intro x hph
        by_cases he : x = id
        · subst he; simp [pumpStartState, natSet] at hph
        · exact i2 x (by simpa [pumpStartState, natSet, he] using hph)
      · intro x hph
        simp only [pumpStartState]
        by_cases he : x = id
        · subst he; simp [pumpStartState, natSet] at hph
        · rw [updRecord_lookup_ne _ _ _ _ he]
          exact i3 x (by simpa [pumpStartState, natSet, he] using hph)
      · intro x ht
        by_cases he : x = id
        · subst he
          exact ⟨by simp [pumpStartState, natSet], (i4 x ht).2⟩
        · exact ⟨by simpa [pumpStartState, natSet, he] using (i4 x ht).1, (i4 x ht).2⟩
      · intro x hph
        simp only [pumpStartState]
        by_cases he : x = id
        · subst he; simp [pumpStartState, natSet] at hph
        · rw [updRecord_lookup_ne _ _ _ _ he]
          exact i5 x (by simpa [pumpStartState, natSet, he] using hph)
      · intro x p hph hsome
        simp only [pumpStartState] at hsome
        by_cases he : x = id
        · subst he; simp [pumpStartState, natSet] at hph
        · rw [updRecord_lookup_ne _ _ _ _ he] at hsome
          exact i6 x p (by simpa [pumpStartState, natSet, he] using hph) hsome
      · intro x p hph hsome
        simp only [pumpStartState] at hsome
        by_cases he : x = id
        · subst he
          rw [updRecord_lookup_eq] at hsome
          obtain ⟨q, hq, hfq⟩ := Option.map_eq_some'.mp hsome
          rw [← hfq]
        · rw [updRecord_lookup_ne _ _ _ _ he] at hsome
          exact i7 x p (by simpa [pumpStartState, natSet, he] using hph) hsome
      · intro x p hph hsome
        simp only [pumpStartState] at hsome
        by_cases he : x = id
        · subst he; simp [pumpStartState, natSet] at hph
        · rw [updRecord_lookup_ne _ _ _ _ he] at hsome
          exact i8 x p (by simpa [pumpStartState, natSet, he] using hph) hsome
    | pumpLine id line hphase =>
      refine ⟨?_, ?_, ?_, ?_, ?_, ?_, ?_, ?_⟩
      · intro x hx
        simp only [pumpLineState]
        by_cases he : x = id
        · subst he
          rw [updRecord_lookup_eq]
          cases hm : σ0.running_processes x with
          | none => exact absurd hm (i1 x hx)
          | some p => simp
        · rw [updRecord_lookup_ne _ _ _ _ he]
          exact i1 x hx
      · intro x hph
        exact i2 x hph
      · intro x hph
        simp only [pumpLineState]
        by_cases he : x = id
        · subst he
          rw [updRecord_lookup_eq]
          cases hm : σ0.running_processes x with
          | none => exact absurd hm (i3 x hph)
          | some p => simp
        · rw [updRecord_lookup_ne _ _ _ _ he]
          exact i3 x hph
      · intro x ht
        exact i4 x ht
      · intro x hph
        simp only [pumpLineState] at hph ⊢
        by_cases he : x = id
        · subst he
          rw [hphase] at hph
          exact absurd hph (by omega)
        · rw [updRecord_lookup_ne _ _ _ _ he]
          exact i5 x hph
      · intro x p hph hsome
        simp only [pumpLineState] at hph hsome
        by_cases he : x = id
        · subst he
          rw [hphase] at hph
          exact absurd hph (by omega)
        · rw [updRecord_lookup_ne _ _ _ _ he] at hsome
          exact i6 x p hph hsome
      · intro x p hph hsome
        simp only [pumpLineState] at hph hsome
        by_cases he : x = id
        · subst he
          rw [updRecord_lookup_eq] at hsome
          obtain ⟨q, hq, hfq⟩ := Option.map_eq_some'.mp hsome
          rw [← hfq]
          exact i7 x q hph hq
        · rw [updRecord_lookup_ne _ _ _ _ he] at hsome
          exact i7 x p hph hsome
      · intro x p hph hsome
        simp only [pumpLineState] at hph hsome
        by_cases he : x = id
        · subst he
          rw [hphase] at hph
          exact absurd hph (by omega)
        · rw [updRecord_lookup_ne _ _ _ _ he] at hsome
          exact i8 x p hph hsome
    | pumpExit id code hphase =>
      refine ⟨?_, ?_, ?_, ?_, ?_, ?_, ?_, ?_⟩
      · intro x hx
        simp only [pumpExitState]
        by_cases he : x = id
        · subst he
          rw [updRecord_lookup_eq]
          cases hm : σ0.running_processes x with
          | none => exact absurd hm (i1 x hx)
          | some p => simp
        · rw [updRecord_lookup_ne _ _ _ _ he]
          exact i1 x hx
      · intro x hph
        by_cases he : x = id
        · subst he; simp [pumpExitState, natSet] at hph
        · exact i2 x (by simpa [pumpExitState, natSet, he] using hph)
      · intro x hph
        simp only [pumpExitState] at hph ⊢
        by_cases he : x = id
        · subst he; simp [natSet] at hph
        · rw [updRecord_lookup_ne _ _ _ _ he]
          exact i3 x (by simpa [natSet, he] using hph)
      · intro x ht
        by_cases he : x = id
        · subst he
          exact ⟨by simp [pumpExitState, natSet], (i4 x ht).2⟩
        · exact ⟨by simpa [pumpExitState, natSet, he] using (i4 x ht).1, (i4 x ht).2⟩
      · intro x hph
        simp only [pumpExitState] at hph ⊢
        by_cases he : x = id
        · subst he; simp [natSet] at hph
        · rw [updRecord_lookup_ne _ _ _ _ he]
          exact i5 x (by simpa [natSet, he] using hph)
      · intro x p hph hsome
        simp only [pumpExitState] at hph hsome
        by_cases he : x = id
        · subst he; simp [natSet] at hph
        · rw [updRecord_lookup_ne _ _ _ _ he] at hsome
          exact i6 x p (by simpa [natSet, he] using hph) hsome
      · intro x p hph hsome
        simp only [pumpExitState] at hph hsome
        by_cases he : x = id
        · subst he; simp [natSet] at hph
        · rw [updRecord_lookup_ne _ _ _ _ he] at hsome
          exact i7 x p (by simpa [natSet, he] using hph) hsome
      · intro x p hph hsome
        simp only [pumpExitState] at hph hsome
        by_cases he : x = id
        · subst he
          rw [updRecord_lookup_eq] at hsome
          obtain ⟨q, hq, hfq⟩ := Option.map_eq_some'.mp hsome
          rw [← hfq]
          rfl
        · rw [updRecord_lookup_ne _ _ _ _ he] at hsome
          exact i8 x p (by simpa [natSet, he] using hph) hsome
    | pumpRemove id hphase =>
      refine ⟨?_, ?_, ?_, ?_, ?_, ?_, ?_, ?_⟩
      · intro x hx
        by_cases he : x = id
        · subst he; simp [pumpRemoveState, boolSet] at hx
        · exact i1 x (by simpa [pumpRemoveState, boolSet, he] using hx)
      · intro x hph
        by_cases he : x = id
        · subst he; simp [pumpRemoveState, boolSet]
        · simp only [pumpRemoveState, boolSet]
          simp only [he, if_false]
          exact i2 x (by simpa [pumpRemoveState, natSet, he] using hph)
      · intro x hph
        by_cases he : x = id
        · subst he; simp [pumpRemoveState, natSet] at hph
        · exact i3 x (by simpa [pumpRemoveState, natSet, he] using hph)
      · intro x ht
        by_cases he : x = id
        · subst he
          exact ⟨by simp [pumpRemoveState, natSet], by simp [pumpRemoveState, boolSet]⟩
        · refine ⟨by simpa [pumpRemoveState, natSet, he] using (i4 x ht).1, ?_⟩
          simpa [pumpRemoveState, boolSet, he] using (i4 x ht).2
      · intro x hph
        by_cases he : x = id
        · subst he; simp [pumpRemoveState, natSet] at hph
        · exact i5 x (by simpa [pumpRemoveState, natSet, he] using hph)
      · intro x p hph hsome
        by_cases he : x = id
        · subst he; simp [pumpRemoveState, natSet] at hph
        · exact i6 x p (by simpa [pumpRemoveState, natSet, he] using hph) hsome
      · intro x p hph hsome
        by_cases he : x = id
        · subst he; simp [pumpRemoveState, natSet] at hph
        · exact i7 x p (by simpa [pumpRemoveState, natSet, he] using hph) hsome
      · intro x p hph hsome
        by_cases he : x = id
        · subst he; exact i8 x p (by rw [hphase]) hsome
        · exact i8 x p (by simpa [pumpRemoveState, natSet, he] using hph) hsome
    | termHandle id hphase =>
      refine ⟨?_, ?_, ?_, ?_, ?_, ?_, ?_, ?_⟩
      · intro x hx
        by_cases he : x = id
        · subst he; simp [termHandleState, boolSet] at hx
        · exact i1 x (by simpa [termHandleState, boolSet, he] using hx)
      · intro x hph
        by_cases he : x = id
        · subst he
          exact absurd hphase (by
            have : σ0.phase x ≤ 1 := hph
            omega)
        · simp only [termHandleState, boolSet]
          simp only [he, if_false]
          exact i2 x hph
      · intro x hph
        exact i3 x hph
      · intro x ht
        by_cases he : x = id
        · subst he
          exact ⟨hphase, by simp [termHandleState, boolSet]⟩
        · have ht0 : σ0.termReady x = true := by
            simpa [termHandleState, boolSet, he] using ht
          refine ⟨(i4 x ht0).1, ?_⟩
          simpa [termHandleState, boolSet, he] using (i4 x ht0).2
      · intro x hph
        exact i5 x hph
      · intro x p hph hsome
        exact i6 x p hph hsome
      · intro x p hph hsome
        exact i7 x p hph hsome
      · intro x p hph hsome
        exact i8 x p hph hsome
    | termMeta id hready =>
      refine ⟨?_, ?_, ?_, ?_, ?_, ?_, ?_, ?_⟩
      · intro x hx
        by_cases he : x = id
        · subst he
          exact absurd hx (by
            show ¬ σ0.child_processes x = true
            rw [(i4 x hready).2]
            simp)
        · simpa [termMetaState, mapSet, he] using i1 x hx
      · intro x hph
        exact i2 x hph
      · intro x hph
        by_cases he : x = id
        · subst he
          have hph0 : σ0.phase x = 1 := hph
          exact absurd (i4 x hready).1 (by omega)
        · simpa [termMetaState, mapSet, he] using i3 x hph
      · intro x ht
        exact i4 x ht
      · intro x hph
        by_cases he : x = id
        · subst he; simp [termMetaState, mapSet]
        · simpa [termMetaState, mapSet, he] using i5 x hph
      · intro x p hph hsome
        by_cases he : x = id
        · subst he; simp [termMetaState, mapSet] at hsome
        · exact i6 x p hph (by simpa [termMetaState, mapSet, he] using hsome)
      · intro x p hph hsome
        by_cases he : x = id
        · subst he; simp [termMetaState, mapSet] at hsome
        · exact i7 x p hph (by simpa [termMetaState, mapSet, he] using hsome)
      · intro x p hph hsome
        by_cases he : x = id
        · subst he; simp [termMetaState, mapSet] at hsome
        · exact i8 x p hph (by simpa [termMetaState, mapSet, he] using hsome)
    | getLogs id =>
      refine ⟨?_, ?_, ?_, ?_, ?_, ?_, ?_, ?_⟩
      · intro x hx
        exact getLogs_fst_ne_none σ0.running_processes id x (i1 x hx)
      · intro x hph
        exact i2 x hph
      · intro x hph
        exact getLogs_fst_ne_none σ0.running_processes id x (i3 x hph)
      · intro x ht
        exact i4 x ht
      · intro x hph
        cases hq : (get_process_logs σ0.running_processes id).1 x with
        | none => exact hq
        | some p2 =>
          obtain ⟨p1, hp1, _, _⟩ := getLogs_fst_some σ0.running_processes id x p2 hq
          rw [i5 x hph] at hp1
          exact absurd hp1 (by simp)
      · intro x p hph hsome
        obtain ⟨q, hq, hst, _⟩ := getLogs_fst_some σ0.running_processes id x p hsome
        rw [hst]
        exact i6 x q hph hq
      · intro x p hph hsome
        obtain ⟨q, hq, hst, _⟩ := getLogs_fst_some σ0.running_processes id x p hsome
        rw [hst]
        exact i7 x q hph hq
      · intro x p hph hsome
        obtain ⟨q, hq, hst, _⟩ := getLogs_fst_some σ0.running_processes id x p hsome
        rw [hst]
        exact i8 x q hph hq

/-- C7: in every state reachable by any interleaving of launch,
output-pump and terminate steps, every key in the child-process handle map
is also present in the metadata map — the handle map's key set is a subset
of the metadata map's key set. -/
theorem c7_handle_subset (σ : SysState) (h : Reach σ) :
    ∀ id, σ.child_processes id = true → ∃ p, σ.running_processes id = some p := by
  intro id hid
  have h1 := (reach_inv σ h).1 id hid
  cases hp : σ.running_processes id with
  | none => exact absurd hp h1
  | some p => exact ⟨p, rfl⟩

/-- Witness for the handle-subset theorem: one concrete launch. -/
theorem c7_handle_subset_witness :
    ∃ p, (launchHandleState (launchMetaState sysInit "a" sampleRec) "a").running_processes
      "a" = some p :=
  c7_handle_subset (launchHandleState (launchMetaState sysInit "a" sampleRec) "a")
    (Reach.step (Reach.step Reach.init (Step.launchMeta sysInit "a" sampleRec rfl rfl rfl rfl))
      (Step.launchHandle (launchMetaState sysInit "a" sampleRec) "a" (by decide)))
    "a" (by decide)

/-- C8: along every step of every reachable execution a record's status
only moves forward in the order `Starting -> Running -> Stopped`, no step
leaves the terminal `Stopped` state, and the declared `Failed` variant is
never assigned by any code path. -/
theorem c8_status_lifecycle :
    (∀ σ σ2, Reach σ → Step σ σ2 → ∀ id p q,
      σ.running_processes id = some p → σ2.running_processes id = some q →
      statusRank p.status ≤ statusRank q.status ∧
      (p.status = ProcessStatus.Stopped → q.status = ProcessStatus.Stopped)) ∧
    (∀ σ, Reach σ → ∀ id p, σ.running_processes id = some p →
      p.status ≠ ProcessStatus.Failed) := by
  constructor
  · intro σ σ2 hR hS id p q hp hq
    obtain ⟨i1, i2, i3, i4, i5, i6, i7, i8⟩ := reach_inv σ hR
    cases hS with
    | launchMeta id0 info hphase hstatus houtput hcursor =>
      by_cases he : id = id0
      · subst he
        rw [i5 id hphase] at hp
        exact absurd hp (by simp)
      · have hq0 : σ.running_processes id = some q := by
          simpa [launchMetaState, mapSet, he] using hq
        rw [hp] at hq0
        injection hq0 with hq0
        rw [hq0]
        exact ⟨le_refl _, fun hs => hs⟩
    | launchHandle id0 hphase =>
      have hq0 : σ.running_processes id = some q := hq
      rw [hp] at hq0
      injection hq0 with hq0
      rw [hq0]
      exact ⟨le_refl _, fun hs => hs⟩
    | pumpStart id0 hphase =>
      by_cases he : id = id0
      · subst he
        have hq0 : (σ.running_processes id).map
            (fun r => { r with status := ProcessStatus.Running }) = some q := by
          simpa [pumpStartState, updRecord_lookup_eq] using hq
        rw [hp] at hq0
        simp only [Option.map_some'] at hq0
        injection hq0 with hq0
        have hps : p.status = ProcessStatus.Starting := i6 id p hphase.le hp
        have hqs : q.status = ProcessStatus.Running := by rw [← hq0]
        constructor
        · rw [hps, hqs]; decide
        · intro hs; rw [hps] at hs; cases hs
      · have heq := updRecord_lookup_ne σ.running_processes id0
          (fun r => { r with status := ProcessStatus.Running }) id he
        have hq0 : σ.running_processes id = some q := by
          simpa [pumpStartState, heq] using hq
        rw [hp] at hq0
        injection hq0 with hq0
        rw [hq0]
        exact ⟨le_refl _, fun hs => hs⟩
    | pumpLine id0 line hphase =>
      by_cases he : id = id0
      · subst he
        have hq0 : (σ.running_processes id).map
            (fun r => { r with output := add_output_line r.output line }) = some q := by
          simpa [pumpLineState, updRecord_lookup_eq] using hq
        rw [hp] at hq0
        simp only [Option.map_some'] at hq0
        injection hq0 with hq0
        have hqs : q.status = p.status := by rw [← hq0]
        rw [hqs]
        exact ⟨le_refl _, fun hs => hs⟩
      · have heq := updRecord_lookup_ne σ.running_processes id0
          (fun r => { r with output := add_output_line r.output line }) id he
        have hq0 : σ.running_processes id = some q := by
          simpa [pumpLineState, heq] using hq
        rw [hp] at hq0
        injection hq0 with hq0
        rw [hq0]
        exact ⟨le_refl _, fun hs => hs⟩
    | pumpExit id0 code hphase =>
      by_cases he : id = id0
      · subst he
        have hq0 : (σ.running_processes id).map
            (fun r => pumpExitRecUpdate r code) = some q := by
          simpa [pumpExitState, updRecord_lookup_eq] using hq
        rw [hp] at hq0
        simp only [Option.map_some'] at hq0
        injection hq0 with hq0
        have hps : p.status = ProcessStatus.Running := i7 id p hphase hp
        have hqs : q.status = ProcessStatus.Stopped := by rw [← hq0]; rfl
        constructor
        · rw [hps, hqs]; decide
        · intro hs; exact hqs
      · have heq := updRecord_lookup_ne σ.running_processes id0
          (fun r => pumpExitRecUpdate r code) id he
        have hq0 : σ.running_processes id = some q := by
          simpa [pumpExitState, heq] using hq
        rw [hp] at hq0
        injection hq0 with hq0
        rw [hq0]
        exact ⟨le_refl _, fun hs => hs⟩
    | pumpRemove id0 hphase =>
      have hq0 : σ.running_processes id = some q := hq
      rw [hp] at hq0
      injection hq0 with hq0
      rw [hq0]
      exact ⟨le_refl _, fun hs => hs⟩
    | termHandle id0 hphase =>
      have hq0 : σ.running_processes id = some q := hq
      rw [hp] at hq0
      injection hq0 with hq0
      rw [hq0]
      exact ⟨le_refl _, fun hs => hs⟩
    | termMeta id0 hready =>
      by_cases he : id = id0
      · subst he
        have : (some q : Option ProcessInfo) = none := by
          rw [← hq]
          simp [termMetaState, mapSet]
        exact absurd this (by simp)
      · have hq0 : σ.running_processes id = some q := by
          simpa [termMetaState, mapSet, he] using hq
        rw [hp] at hq0
        injection hq0 with hq0
        rw [hq0]
        exact ⟨le_refl _, fun hs => hs⟩
    | getLogs id0 =>
      obtain ⟨p1, hp1, hst, _⟩ := getLogs_fst_some σ.running_processes id0 id q hq
      rw [hp] at hp1
      injection hp1 with hp1
      rw [hst, hp1]
      exact ⟨le_refl _, fun hs => hs⟩
  · intro σ hR id p hp
    obtain ⟨i1, i2, i3, i4, i5, i6, i7, i8⟩ := reach_inv σ hR
    rcases Nat.lt_or_ge (σ.phase id) 3 with h3 | h3
    · rw [i6 id p (by omega) hp]
      decide
    · rcases Nat.lt_or_ge (σ.phase id) 4 with h4 | h4
      · rw [i7 id p (by omega) hp]
        decide
      · rw [i8 id p h4 hp]
        decide

/-- Witness for the lifecycle theorem: a concrete reachable state and
step. -/
theorem c8_status_lifecycle_witness :
    statusRank sampleRec.status ≤ statusRank sampleRec.status ∧
    sampleRec.status ≠ ProcessStatus.Failed := by
  have hreach : Reach (launchMetaState sysInit "a" sampleRec) :=
    Reach.step Reach.init (Step.launchMeta sysInit "a" sampleRec rfl rfl rfl rfl)
  have hstep : Step (launchMetaState sysInit "a" sampleRec)
      (launchHandleState (launchMetaState sysInit "a" sampleRec) "a") :=
    Step.launchHandle (launchMetaState sysInit "a" sampleRec) "a" (by decide)
  have hlook : (launchMetaState sysInit "a" sampleRec).running_processes "a" =
      some sampleRec := by decide
  exact ⟨(c8_status_lifecycle.1 (launchMetaState sysInit "a" sampleRec)
      (launchHandleState (launchMetaState sysInit "a" sampleRec) "a") hreach hstep
      "a" sampleRec sampleRec hlook (by decide)).1,
    c8_status_lifecycle.2 (launchMetaState sysInit "a" sampleRec) hreach "a"
      sampleRec hlook⟩

end LlamaOS
